import Mathlib

/-
  Verification of the py-torrent bencode codec (src/bencode.py) and the
  peer-wire piece-download engine (src/client.py).

  Bytes are modelled as natural numbers, byte strings as `List Nat`.
  The decoder keeps a cursor `self.current` into an immutable `self.source`;
  every access goes through `peek`/`advance`/`expect`, so the pair
  (source, current) is modelled by the remaining suffix of the source.
  Python exceptions become `Except` errors.
-/

/-- A Python value handled by the codec: bytes, int, list, or dict.
    A dict is modelled as its association list in insertion order;
    keys of a Python dict are unique byte strings. -/
inductive Bencode where
  | str (s : List Nat)
  | int (i : Int)
  | list (l : List Bencode)
  | dict (d : List (List Nat × Bencode))

/-- The Python exceptions the decoder can raise, plus a fuel marker that is
    an artifact of the embedding (never reached when the fuel argument is at
    least the `costB` of the value being decoded). -/
inductive DErr where
  | indexError
  | valueError
  | notImpl
  | fuelOut
deriving Repr, DecidableEq

/-- Model of `Decoder.peek`: the byte at the cursor; IndexError past the end. -/
def peek : List Nat → Except DErr Nat
  | [] => .error .indexError
  | c :: _ => .ok c

/-- Model of `Decoder.advance`: returns the current byte and moves the cursor. -/
def advance : List Nat → Except DErr (Nat × List Nat)
  | [] => .error .indexError
  | c :: s => .ok (c, s)

/-- Model of `Decoder.expect(char)`: ValueError unless the current byte is
    `char` (peek itself raises IndexError at the end of input). -/
def expect (char : Nat) (s : List Nat) : Except DErr (List Nat) :=
  match s with
  | [] => .error .indexError
  | c :: t => if c = char then .ok t else .error .valueError

/-- Byte is an ASCII digit, as tested by `bytes.isdigit()`. -/
def isDigitB (c : Nat) : Bool := 48 ≤ c && c ≤ 57

/-- Byte is one of `0123456789-`, the loop guard of `read_number`. -/
def isNumB (c : Nat) : Bool := isDigitB c || c == 45

/-- The collecting loop of `Decoder.read_number`: gathers bytes while the
    guard holds. The loop condition calls `peek`, which raises IndexError
    when the input is exhausted, even after some bytes were collected. -/
def read_digits : List Nat → Except DErr (List Nat × List Nat)
  | [] => .error .indexError
  | c :: s =>
    if isNumB c then
      match read_digits s with
      | .ok (ds, s1) => .ok (c :: ds, s1)
      | .error e => .error e
    else .ok ([], c :: s)

/-- Numeric value of a list of ASCII digit bytes. -/
def digitsVal (ds : List Nat) : Nat := ds.foldl (fun a c => 10 * a + (c - 48)) 0

/-- Model of Python `int()` applied to the bytes collected by `read_number`
    (which contains only digits and the minus sign): it succeeds exactly on
    an optional single leading minus followed by at least one digit, and
    raises ValueError otherwise. -/
def pyInt (ds : List Nat) : Except DErr Int :=
  match ds with
  | [] => .error .valueError
  | c :: t =>
    if c = 45 then
      if t.isEmpty then .error .valueError
      else if t.all isDigitB then .ok (-(digitsVal t : Int))
      else .error .valueError
    else
      if (c :: t).all isDigitB then .ok (digitsVal (c :: t))
      else .error .valueError

/-- Model of `Decoder.read_number`. -/
def read_number (s : List Nat) : Except DErr (Int × List Nat) := do
  let (ds, s1) ← read_digits s
  let n ← pyInt ds
  .ok (n, s1)

/-- The copy loop of `Decoder.read_string`: `for _ in range(len)` advancing
    one byte per iteration; `range` of a negative length is empty, which is
    why the caller passes `Int.toNat` of the parsed length. -/
def read_bytes : Nat → List Nat → Except DErr (List Nat × List Nat)
  | 0, s => .ok ([], s)
  | _ + 1, [] => .error .indexError
  | n + 1, c :: s => do
    let (t, s1) ← read_bytes n s
    .ok (c :: t, s1)

/-- Model of `Decoder.read_string`: a length, a colon, then that many bytes. -/
def read_string (s : List Nat) : Except DErr (List Nat × List Nat) := do
  let (len, s1) ← read_number s
  let s2 ← expect 58 s1
  read_bytes len.toNat s2

/-- Model of `Decoder.read_integer`: `i`, a number, `e` (the commented-out
    checks for `-0` and leading zeros are absent from the behavior). -/
def read_integer (s : List Nat) : Except DErr (Int × List Nat) := do
  let s1 ← expect 105 s
  let (n, s2) ← read_number s1
  let s3 ← expect 101 s2
  .ok (n, s3)

mutual
/-- Model of `Decoder.decode_one` (hence of `Decoder.decode`, which just
    forwards to it): dispatch on the peeked byte — a digit starts a string,
    `i` an integer, `l` a list, `d` a dict, anything else raises
    NotImplementedError. The fuel argument bounds the recursion depth of the
    embedding only; `fuelOut` is unreachable with fuel at least `costB` of
    the decoded value. -/
def decode_one : Nat → List Nat → Except DErr (Bencode × List Nat)
  | 0, _ => .error .fuelOut
  | fuel + 1, s =>
    match s with
    | [] => .error .indexError
    | c :: _ =>
      if isDigitB c then do
        let (t, s1) ← read_string s
        .ok (.str t, s1)
      else if c = 105 then do
        let (n, s1) ← read_integer s
        .ok (.int n, s1)
      else if c = 108 then do
        let s1 ← expect 108 s
        let (l, s2) ← decode_items fuel s1
        .ok (.list l, s2)
      else if c = 100 then do
        let s1 ← expect 100 s
        let (d, s2) ← decode_pairs fuel s1
        .ok (.dict d, s2)
      else .error .notImpl

/-- The element loop of `Decoder.read_list`: decode values while the peeked
    byte is not `e`, then consume the closing `e`. -/
def decode_items : Nat → List Nat → Except DErr (List Bencode × List Nat)
  | 0, _ => .error .fuelOut
  | fuel + 1, s =>
    match s with
    | [] => .error .indexError
    | c :: s1 =>
      if c = 101 then .ok ([], s1)
      else do
        let (v, s2) ← decode_one fuel s
        let (vs, s3) ← decode_items fuel s2
        .ok (v :: vs, s3)

/-- The pair loop of `Decoder.read_dict`: keys via `read_string`, values via
    `decode_one`, while the peeked byte is not `e`. `dict(zip(keys, values))`
    keeps the pairs in read order, modelled as the association list itself. -/
def decode_pairs : Nat → List Nat → Except DErr (List (List Nat × Bencode) × List Nat)
  | 0, _ => .error .fuelOut
  | fuel + 1, s =>
    match s with
    | [] => .error .indexError
    | c :: s1 =>
      if c = 101 then .ok ([], s1)
      else do
        let (k, s2) ← read_string s
        let (v, s3) ← decode_one fuel s2
        let (ps, s4) ← decode_pairs fuel s3
        .ok ((k, v) :: ps, s4)
end

/-- Decimal digit bytes of a natural number, as produced by Python `str`;
    the first argument is fuel that plainly dominates the number of
    divisions (any fuel above the argument works). -/
def natDigitsAux : Nat → Nat → List Nat
  | 0, _ => []
  | f + 1, n => if n < 10 then [48 + n] else natDigitsAux f (n / 10) ++ [48 + n % 10]

/-- Decimal digit bytes of a natural number (Python `str(n).encode()`). -/
def natDigits (n : Nat) : List Nat := natDigitsAux (n + 1) n

/-- Decimal bytes of an integer, sign included (Python `str(i).encode()`). -/
def intDigits : Int → List Nat
  | .ofNat n => natDigits n
  | .negSucc m => 45 :: natDigits (m + 1)

/-- Model of `Encoder.encode_string`: `str(len(s)).encode() + b":" + s`. -/
def encode_string (s : List Nat) : List Nat := natDigits s.length ++ 58 :: s

/-- Model of `Encoder.encode_int`: `f"i{i}e".encode()`. -/
def encode_int (i : Int) : List Nat := 105 :: intDigits i ++ [101]

/-- Byte-lexicographic order on byte strings (Python `<=` on `bytes`). -/
def lexLe : List Nat → List Nat → Bool
  | [], _ => true
  | _ :: _, [] => false
  | a :: s, b :: t => if a < b then true else if a = b then lexLe s t else false

/-- Strict byte-lexicographic order on byte strings (Python `<` on `bytes`). -/
def lexLt : List Nat → List Nat → Bool
  | [], [] => false
  | [], _ :: _ => true
  | _ :: _, [] => false
  | a :: s, b :: t => if a < b then true else if a = b then lexLt s t else false

/-- Insert a pair into a list sorted by ascending key. -/
def insortPair {α : Type} (p : List Nat × α) : List (List Nat × α) → List (List Nat × α)
  | [] => [p]
  | q :: qs => if lexLe p.1 q.1 then p :: q :: qs else q :: insortPair p qs

/-- Model of `sorted(d.items())`. Python uses a stable comparison sort on
    the (key, value) tuples; the keys of a Python dict are distinct, so the
    tuple comparison never reaches the values and every comparison sort
    produces the single key-ascending order. Modelled as insertion sort
    keyed on the byte-string key. -/
def sortPairs {α : Type} : List (List Nat × α) → List (List Nat × α)
  | [] => []
  | p :: ps => insortPair p (sortPairs ps)

/-- Concatenation step of `Encoder.encode_dict`: each pair contributes
    `encode_string(k)` followed by the already-encoded value bytes. -/
def joinKeyed : List (List Nat × List Nat) → List Nat
  | [] => []
  | (k, ev) :: ps => encode_string k ++ ev ++ joinKeyed ps

mutual
/-- Model of `Encoder.encode_one` (hence of `Encoder.encode`): dispatch on
    the kind of the value. -/
def encode_one : Bencode → List Nat
  | .dict d => 100 :: joinKeyed (sortPairs (encKeyed d)) ++ [101]
  | .list l => 108 :: encItems l ++ [101]
  | .int i => encode_int i
  | .str s => encode_string s

/-- The element loop of `Encoder.encode_list`. -/
def encItems : List Bencode → List Nat
  | [] => []
  | v :: vs => encode_one v ++ encItems vs

/-- The pairs of a dict with each value replaced by its encoding. Encoding
    the values before sorting keeps the recursion structural; it yields the
    same bytes as the source, which sorts the pairs first and then encodes
    each in order, because the sort only compares the (unchanged) keys. -/
def encKeyed : List (List Nat × Bencode) → List (List Nat × List Nat)
  | [] => []
  | (k, v) :: ps => (k, encode_one v) :: encKeyed ps
end

/-- Model of `Encoder.encode_list` as a standalone function; `encode_one`
    computes exactly this on a list value. -/
def encode_list (l : List Bencode) : List Nat := 108 :: encItems l ++ [101]

/-- Model of `Encoder.encode_dict` as a standalone function: `d`, the
    key-value pairs in `sorted(d.items())` order, then `e`; `encode_one`
    computes exactly this on a dict value. -/
def encode_dict (d : List (List Nat × Bencode)) : List Nat :=
  100 :: joinKeyed (sortPairs (encKeyed d)) ++ [101]

mutual
/-- The value the decoder reconstructs from the encoding of `v`: the same
    tree with every dict in key-sorted order. -/
def canonB : Bencode → Bencode
  | .str s => .str s
  | .int i => .int i
  | .list l => .list (canonItems l)
  | .dict d => .dict (sortPairs (canonPairs d))

def canonItems : List Bencode → List Bencode
  | [] => []
  | v :: vs => canonB v :: canonItems vs

def canonPairs : List (List Nat × Bencode) → List (List Nat × Bencode)
  | [] => []
  | (k, v) :: ps => (k, canonB v) :: canonPairs ps
end

/-- All keys distinct (Python dict keys are necessarily so). -/
def distinctKeys : List (List Nat) → Bool
  | [] => true
  | k :: ks => !(ks.contains k) && distinctKeys ks

mutual
/-- Representable value: every dict in the tree has distinct keys — exactly
    the trees that arise from Python values whose dicts have bytes keys. -/
def wfB : Bencode → Bool
  | .str _ => true
  | .int _ => true
  | .list l => wfItems l
  | .dict d => distinctKeys (d.map Prod.fst) && wfPairs d

def wfItems : List Bencode → Bool
  | [] => true
  | v :: vs => wfB v && wfItems vs

def wfPairs : List (List Nat × Bencode) → Bool
  | [] => true
  | (_, v) :: ps => wfB v && wfPairs ps
end

/-- First value bound to a key in an association list (`d[k]` for a dict
    whose pairs are listed in insertion order, keys unique). -/
def lookupKey (k : List Nat) : List (List Nat × Bencode) → Option Bencode
  | [] => none
  | (k2, v) :: ps => if k2 = k then some v else lookupKey k ps

mutual
/-- Model of Python `==` between decoded and original values: bytes and ints
    compare by value, lists pointwise, dicts as finite maps (same size and
    every key of the left side maps to an equal value on the right),
    insertion order ignored. -/
def pyEqB : Bencode → Bencode → Bool
  | .str a, .str b => a == b
  | .int a, .int b => a == b
  | .list a, .list b => pyEqItems a b
  | .dict a, .dict b => a.length == b.length && pyEqPairs a b
  | _, _ => false

def pyEqItems : List Bencode → List Bencode → Bool
  | [], [] => true
  | a :: as1, b :: bs1 => pyEqB a b && pyEqItems as1 bs1
  | _, _ => false

def pyEqPairs : List (List Nat × Bencode) → List (List Nat × Bencode) → Bool
  | [], _ => true
  | (k, v) :: ps, b =>
    (match lookupKey k b with
     | some w => pyEqB v w
     | none => false) && pyEqPairs ps b
end

mutual
/-- Fuel cost of decoding the encoding of a value: one unit per
    `decode_one` call plus one per loop iteration. Any fuel at least this
    large decodes `encode_one v` without reaching `fuelOut`. -/
def costB : Bencode → Nat
  | .str _ => 1
  | .int _ => 1
  | .list l => 1 + costItems l
  | .dict d => 1 + costPairs d

def costItems : List Bencode → Nat
  | [] => 1
  | v :: vs => 1 + costB v + costItems vs

def costPairs : List (List Nat × Bencode) → Nat
  | [] => 1
  | (_, v) :: ps => 1 + costB v + costPairs ps
end

/-
  Shallow embedding of SimpleClient.connect_and_fetch (src/client.py).
  The inbound byte stream of the connection is a `List Nat` consumed from
  the front (asyncio readexactly), the outbound side is an accumulator of
  written bytes. The peer being scripted, its bytes do not depend on the
  requests, so the whole exchange is a function of the inbound stream.
-/

/-- The exceptions the engine can raise, plus the fuel artifact of the
    embedding (unreachable: the receive loop consumes at least five bytes
    per iteration while its fuel is the stream length plus one). -/
inductive CErr where
  | incompleteRead
  | bitfieldExc
  | unchokeExc
  | valueError
  | fuelOut
deriving Repr, DecidableEq

/-- Model of `await reader.readexactly(n)`: exactly `n` bytes from the
    front of the stream, or IncompleteReadError if fewer remain. -/
def readexactly (n : Nat) (s : List Nat) : Except CErr (List Nat × List Nat) :=
  if s.length < n then .error .incompleteRead else .ok (s.take n, s.drop n)

/-- Big-endian 4-byte encoding of `struct.pack(">I", n)`; `struct.pack`
    raises on `n ≥ 2 ^ 32`, and every value packed by the engine below is
    below that bound under the stated hypotheses. -/
def be32 (n : Nat) : List Nat := [n / 16777216 % 256, n / 65536 % 256, n / 256 % 256, n % 256]

/-- Model of `struct.unpack(">IB", msg)` on the five bytes of a message
    header: the big-endian length and the type byte. The catch-all branch is
    unreachable because `readexactly 5` always supplies five bytes. -/
def unpackIB : List Nat → Nat × Nat
  | [a, b, c, d, t] => (((a * 256 + b) * 256 + c) * 256 + d, t)
  | _ => (0, 0)

/-- Model of `struct.unpack(">II", piece_data)` on the eight bytes before a
    block: the piece index and the begin offset. -/
def unpackII : List Nat → Nat × Nat
  | [a, b, c, d, a2, b2, c2, d2] =>
    (((a * 256 + b) * 256 + c) * 256 + d, ((a2 * 256 + b2) * 256 + c2) * 256 + d2)
  | _ => (0, 0)

/-- A `<n>s` field of `struct.pack`: the bytes truncated or zero-padded to
    exactly `n`. -/
def sfield (n : Nat) (b : List Nat) : List Nat := b.take n ++ List.replicate (n - b.length) 0

/-- The 19 bytes of the literal protocol name. -/
def protocolName : List Nat :=
  [66, 105, 116, 84, 111, 114, 114, 101, 110, 116, 32, 112, 114, 111, 116, 111, 99, 111, 108]

/-- The module constant MY_PEER_ID, the 20 ASCII bytes of the fixed local
    peer identifier string. -/
def MY_PEER_ID : List Nat :=
  [72, 106, 53, 107, 80, 57, 120, 90, 50, 113, 76, 109, 78, 98, 55, 118, 89, 99, 51, 119]

/-- Model of `struct.pack(">B19s8x20s20s", 19, b"BitTorrent protocol",
    info_hash, peer_id)`: the handshake bytes the engine writes. -/
def handshakeBytes (info_hash peer_id : List Nat) : List Nat :=
  19 :: sfield 19 protocolName ++ List.replicate 8 0 ++ sfield 20 info_hash ++ sfield 20 peer_id

/-- Model of `struct.pack(">IB", 1, 2)`, the interested message. -/
def interestedBytes : List Nat := [0, 0, 0, 1, 2]

/-- Model of `struct.pack(">IBIII", 13, 6, 0, offset, size)`, one block
    request (the piece index is fixed at 0). -/
def requestBytes (offset size : Nat) : List Nat :=
  be32 13 ++ 6 :: (be32 0 ++ be32 offset ++ be32 size)

/-- Model of Python bytearray slice assignment
    `data[bgn : bgn + len(block)] = block`: slice bounds clamp to the buffer
    length, so a write past the end appends instead of failing. -/
def setSlice (data : List Nat) (bgn : Nat) (block : List Nat) : List Nat :=
  data.take bgn ++ block ++ data.drop (bgn + block.length)

/-- The block-size computation of `connect_and_fetch`:
    `q, r = divmod(piece_length, 16 * 2**10)`, then
    `(q + 1, r)` if `r > 0` else `(q, block_size)` —
    the pair (block_count, last_block_size). -/
def blockPlan (piece_length : Nat) : Nat × Nat :=
  let block_size := 16 * 2 ^ 10
  let q := piece_length / block_size
  let r := piece_length % block_size
  if r > 0 then (q + 1, r) else (q, block_size)

/-- The per-index block size of the request loop:
    `block_size if i < block_count - 1 else last_block_size`, listed for
    every index of `range(block_count)`. -/
def blockSizes (piece_length : Nat) : List Nat :=
  let block_size := 16 * 2 ^ 10
  let (block_count, last_block_size) := blockPlan piece_length
  (List.range block_count).map
    (fun i => if i < block_count - 1 then block_size else last_block_size)

/-- The inner `while True` receive loop of `connect_and_fetch`: read a
    five-byte header; a non-piece message is skipped after consuming its
    remaining `msg_len - 1` payload bytes (nothing more is read when
    `msg_len ≤ 1`); a piece message supplies index, begin, and
    `msg_len - 9` block bytes which are spliced into the buffer at begin.
    A negative Python read count (`msg_len < 9`) raises ValueError. -/
def recvPiece : Nat → List Nat → List Nat → Except CErr (List Nat × List Nat)
  | 0, _, _ => .error .fuelOut
  | fuel + 1, data, stream => do
    let (msg, s1) ← readexactly 5 stream
    let (msg_len, msg_type) := unpackIB msg
    if msg_type ≠ 7 then
      if msg_len > 1 then do
        let (_, s2) ← readexactly (msg_len - 1) s1
        recvPiece fuel data s2
      else recvPiece fuel data s1
    else do
      let (piece_data, s2) ← readexactly 8 s1
      let (_piece_idx, bgn) := unpackII piece_data
      if msg_len < 9 then .error .valueError
      else do
        let (block_data, s3) ← readexactly (msg_len - 9) s2
        .ok (setSlice data bgn block_data, s3)

/-- The `for i in range(block_count)` request loop: write one request, then
    run the receive loop until a piece message arrives. -/
def blockLoop (block_count block_size last_block_size : Nat) :
    List Nat → List Nat → List Nat → List Nat → Except CErr (Bool × List Nat × List Nat)
  | [], data, _stream, out => .ok (true, data, out)
  | i :: idxs, data, stream, out =>
    let offset := i * block_size
    let size := if i < block_count - 1 then block_size else last_block_size
    let out1 := out ++ requestBytes offset size
    match recvPiece (stream.length + 1) data stream with
    | .error e => .error e
    | .ok (data1, stream1) =>
      blockLoop block_count block_size last_block_size idxs data1 stream1 out1

/-- Model of `SimpleClient.connect_and_fetch`, as a function of the piece
    length, the info hash, and the inbound stream. The result triple is the
    Python return value (the literal `True`), the final contents of the
    local `data` buffer, and the bytes written to the socket; on an
    exception nothing is returned and `writer.close()` is never reached.
    Steps: write the handshake; read the 68-byte reply (the trailing peer
    id is extracted but unused); read a five-byte header that must have
    type 5 (bitfield) and consume its payload (a zero length would make
    `readexactly(msg_len - 1)` negative, a ValueError); write interested;
    read a five-byte header, raising only when its length differs from 1
    AND its type differs from 1 (the source combines the two conditions
    with `and`); compute the block plan; then run the request loop on a
    zero-filled buffer of `piece_length` bytes. -/
def connect_and_fetch (piece_length : Nat) (info_hash stream : List Nat) :
    Except CErr (Bool × List Nat × List Nat) := do
  let out0 := handshakeBytes info_hash MY_PEER_ID
  let (_response, s1) ← readexactly 68 stream
  let (msg, s2) ← readexactly 5 s1
  let (msg_len, msg_type) := unpackIB msg
  if msg_type ≠ 5 then .error .bitfieldExc
  else if msg_len = 0 then .error .valueError
  else do
    let (_bf, s3) ← readexactly (msg_len - 1) s2
    let out1 := out0 ++ interestedBytes
    let (msg2, s4) ← readexactly 5 s3
    let (len2, type2) := unpackIB msg2
    if len2 ≠ 1 ∧ type2 ≠ 1 then .error .unchokeExc
    else
      let (block_count, last_block_size) := blockPlan piece_length
      let data := List.replicate piece_length 0
      blockLoop block_count (16 * 2 ^ 10) last_block_size
        (List.range block_count) data s4 out1

/-- The message bytes of a bitfield message carrying payload `bf`. -/
def bitfieldMsgBytes (bf : List Nat) : List Nat := be32 (bf.length + 1) ++ 5 :: bf

/-- The message bytes of an unchoke message. -/
def unchokeBytes : List Nat := [0, 0, 0, 1, 1]

/-- The message bytes of a piece message for piece 0 at a given begin
    offset carrying the given block. -/
def pieceMsgBytes (offset : Nat) (block : List Nat) : List Nat :=
  be32 (9 + block.length) ++ 7 :: (be32 0 ++ be32 offset ++ block)

/-- The reply stream of a compliant peer for the given block indices: one
    piece message per request, carrying exactly the requested slice of the
    piece content. -/
def pieceAnswers (block_count block_size last_block_size : Nat) (content : List Nat) :
    List Nat → List Nat
  | [] => []
  | i :: idxs =>
    let size := if i < block_count - 1 then block_size else last_block_size
    pieceMsgBytes (i * block_size) ((content.drop (i * block_size)).take size)
      ++ pieceAnswers block_count block_size last_block_size content idxs

/-
  Proof development. First the primitive lemmas about the decoder and
  encoder building blocks, then the round-trip machinery, then the
  claim theorems.
-/

theorem exbind_ok {ε α β : Type} (a : α) (g : α → Except ε β) :
    (Except.ok a : Except ε α) >>= g = g a := rfl

theorem exbind_error {ε α β : Type} (e : ε) (g : α → Except ε β) :
    (Except.error e : Except ε α) >>= g = .error e := rfl

attribute [simp] exbind_ok exbind_error

theorem digitsVal_append_one (ds : List Nat) (c : Nat) :
    digitsVal (ds ++ [c]) = 10 * digitsVal ds + (c - 48) := by
  simp [digitsVal, List.foldl_append]

theorem natDigitsAux_spec (f : Nat) :
    ∀ n, n < f →
      (natDigitsAux f n).all isDigitB = true ∧
      natDigitsAux f n ≠ [] ∧
      digitsVal (natDigitsAux f n) = n := by
  induction f with
  | zero => intro n hn; omega
  | succ f ih =>
    intro n hn
    by_cases h10 : n < 10
    · refine ⟨?_, ?_, ?_⟩
      · simp [natDigitsAux, h10, isDigitB, digitsVal]; omega
      · simp [natDigitsAux, h10]
      · simp [natDigitsAux, h10, digitsVal]
    · have hdiv : n / 10 < f := by
        have h1 : n / 10 < n := Nat.div_lt_self (by omega) (by omega)
        omega
      obtain ⟨ha, hn0, hv⟩ := ih (n / 10) hdiv
      refine ⟨?_, ?_, ?_⟩
      · simp [natDigitsAux, h10, List.all_append, ha, isDigitB]
        omega
      · simp [natDigitsAux, h10]
      · simp only [natDigitsAux, if_neg h10, digitsVal_append_one, hv]
        omega

theorem natDigits_spec (n : Nat) :
    (natDigits n).all isDigitB = true ∧ natDigits n ≠ [] ∧ digitsVal (natDigits n) = n :=
  natDigitsAux_spec (n + 1) n (Nat.lt_succ_self n)

theorem natDigits_cons (n : Nat) :
    ∃ c t, natDigits n = c :: t ∧ isDigitB c = true := by
  obtain ⟨ha, hn, _⟩ := natDigits_spec n
  match h : natDigits n with
  | [] => exact absurd h hn
  | c :: t =>
    refine ⟨c, t, rfl, ?_⟩
    rw [h] at ha
    simp [List.all_cons] at ha
    exact ha.1

theorem pyInt_digits (ds : List Nat) (h1 : ds ≠ []) (h2 : ds.all isDigitB = true) :
    pyInt ds = .ok (digitsVal ds) := by
  match ds with
  | [] => exact absurd rfl h1
  | c :: t =>
    have hc : isDigitB c = true := by simp [List.all_cons] at h2; exact h2.1
    have hc45 : c ≠ 45 := by simp [isDigitB] at hc; omega
    simp [pyInt, hc45, h2]

theorem pyInt_intDigits (i : Int) : pyInt (intDigits i) = .ok i := by
  match i with
  | .ofNat n =>
    obtain ⟨ha, hn, hv⟩ := natDigits_spec n
    rw [intDigits, pyInt_digits _ hn ha, hv]
    rfl
  | .negSucc m =>
    obtain ⟨ha, hn, hv⟩ := natDigits_spec (m + 1)
    have hne : (natDigits (m + 1)).isEmpty = false := by
      simpa [List.isEmpty_iff] using hn
    simp only [intDigits, pyInt, if_pos rfl, hne, Bool.false_eq_true, if_false, ha, if_true,
      hv, Int.negSucc_eq]
    norm_num

theorem read_digits_split (ds : List Nat) (hds : ds.all isNumB = true)
    (c : Nat) (hc : isNumB c = false) (s : List Nat) :
    read_digits (ds ++ c :: s) = .ok (ds, c :: s) := by
  induction ds with
  | nil => simp [read_digits, hc]
  | cons d ds ih =>
    rw [List.all_cons, Bool.and_eq_true] at hds
    simp only [List.cons_append, read_digits, hds.1, if_true, List.append_eq, ih hds.2]

theorem read_bytes_exact (t : List Nat) : ∀ s, read_bytes t.length (t ++ s) = .ok (t, s) := by
  induction t with
  | nil => intro s; rfl
  | cons c t ih => intro s; simp [read_bytes, List.length_cons, ih s]

theorem digit_isNumB (ds : List Nat) (h : ds.all isDigitB = true) : ds.all isNumB = true := by
  induction ds with
  | nil => rfl
  | cons c t ih =>
    rw [List.all_cons, Bool.and_eq_true] at h ⊢
    exact ⟨by simp [isNumB, h.1], ih h.2⟩

theorem intDigits_isNumB (i : Int) : (intDigits i).all isNumB = true := by
  match i with
  | .ofNat n => exact digit_isNumB _ (natDigits_spec n).1
  | .negSucc m =>
    simp only [intDigits, List.all_cons, Bool.and_eq_true]
    exact ⟨by simp [isNumB], digit_isNumB _ (natDigits_spec (m + 1)).1⟩

theorem read_number_encoded (i : Int) (c : Nat) (hc : isNumB c = false) (s : List Nat) :
    read_number (intDigits i ++ c :: s) = .ok (i, c :: s) := by
  rw [read_number, read_digits_split _ (intDigits_isNumB i) c hc s]
  simp [pyInt_intDigits]

theorem isNumB_58 : isNumB 58 = false := rfl

theorem isNumB_101 : isNumB 101 = false := rfl

theorem read_number_digits (n c : Nat) (hc : isNumB c = false) (s : List Nat) :
    read_number (natDigits n ++ c :: s) = .ok ((n : Int), c :: s) := by
  obtain ⟨ha, hn, hv⟩ := natDigits_spec n
  rw [read_number, read_digits_split _ (digit_isNumB _ ha) c hc s]
  simp [pyInt_digits _ hn ha, hv]

theorem read_string_encoded (t rest : List Nat) :
    read_string (encode_string t ++ rest) = .ok (t, rest) := by
  have h1 : encode_string t ++ rest = natDigits t.length ++ 58 :: (t ++ rest) := by
    simp [encode_string]
  rw [read_string, h1, read_number_digits _ 58 isNumB_58]
  simp only [exbind_ok, expect, if_pos rfl, Int.toNat_natCast]
  exact read_bytes_exact t rest

theorem read_integer_encoded (i : Int) (rest : List Nat) :
    read_integer (encode_int i ++ rest) = .ok (i, rest) := by
  have h1 : encode_int i ++ rest = 105 :: (intDigits i ++ 101 :: rest) := by
    simp [encode_int]
  rw [read_integer, h1]
  simp [expect, read_number_encoded i 101 isNumB_101]

theorem encode_string_cons (k : List Nat) :
    ∃ c t, encode_string k = c :: t ∧ isDigitB c = true := by
  obtain ⟨c, t, hct, hd⟩ := natDigits_cons k.length
  exact ⟨c, t ++ 58 :: k, by simp [encode_string, hct], hd⟩

theorem encode_one_cons (v : Bencode) : ∃ c t, encode_one v = c :: t ∧ c ≠ 101 := by
  match v with
  | .str s =>
    obtain ⟨c, t, hct, hd⟩ := encode_string_cons s
    refine ⟨c, t, by simp [encode_one, hct], ?_⟩
    simp [isDigitB] at hd; omega
  | .int i => exact ⟨105, intDigits i ++ [101], by simp [encode_one, encode_int], by omega⟩
  | .list l => exact ⟨108, encItems l ++ [101], by simp [encode_one], by omega⟩
  | .dict d => exact ⟨100, joinKeyed (sortPairs (encKeyed d)) ++ [101], by simp [encode_one], by omega⟩

theorem insortPair_perm {α : Type} (p : List Nat × α) (qs : List (List Nat × α)) :
    (insortPair p qs).Perm (p :: qs) := by
  induction qs with
  | nil => exact List.Perm.refl _
  | cons q qs ih =>
    by_cases h : lexLe p.1 q.1 = true
    · simp [insortPair, h]
    · simp only [insortPair, h, Bool.false_eq_true, if_false]
      exact ((ih.cons q).trans (List.Perm.swap p q qs))

theorem sortPairs_perm {α : Type} (qs : List (List Nat × α)) : (sortPairs qs).Perm qs := by
  induction qs with
  | nil => exact List.Perm.refl _
  | cons q qs ih => exact (insortPair_perm q (sortPairs qs)).trans (ih.cons q)

theorem insortPair_map {α β : Type} (g : α → β) (p : List Nat × α) (qs : List (List Nat × α)) :
    insortPair (p.1, g p.2) (qs.map (fun q => (q.1, g q.2)))
      = (insortPair p qs).map (fun q => (q.1, g q.2)) := by
  induction qs with
  | nil => rfl
  | cons q qs ih =>
    by_cases h : lexLe p.1 q.1 = true
    · simp [insortPair, h]
    · simp [insortPair, h, ih]

theorem sortPairs_map {α β : Type} (g : α → β) (qs : List (List Nat × α)) :
    sortPairs (qs.map (fun q => (q.1, g q.2))) = (sortPairs qs).map (fun q => (q.1, g q.2)) := by
  induction qs with
  | nil => rfl
  | cons q qs ih => simp only [List.map_cons, sortPairs, ih, insortPair_map]

theorem lexLe_total (a : List Nat) : ∀ b, lexLe a b = true ∨ lexLe b a = true := by
  induction a with
  | nil => intro b; left; rfl
  | cons x s ih =>
    intro b
    match b with
    | [] => right; rfl
    | y :: t =>
      by_cases hxy : x < y
      · left; simp [lexLe, hxy]
      · by_cases hyx : y < x
        · right; simp [lexLe, hyx]
        · have hxy2 : x = y := by omega
          subst hxy2
          rcases ih t with h | h
          · left; simp [lexLe, h]
          · right; simp [lexLe, h]

theorem lexLe_trans (a : List Nat) : ∀ b c, lexLe a b = true → lexLe b c = true →
    lexLe a c = true := by
  induction a with
  | nil => intro b c _ _; rfl
  | cons x s ih =>
    intro b c hab hbc
    match b, c with
    | [], _ => simp [lexLe] at hab
    | _ :: _, [] => simp [lexLe] at hbc
    | y :: t, z :: u =>
      simp only [lexLe] at hab hbc ⊢
      by_cases hxy : x < y
      · by_cases hyz : y < z
        · simp [show x < z by omega]
        · by_cases hyz2 : y = z
          · subst hyz2; simp [hxy]
          · simp [hyz, hyz2] at hbc
      · by_cases hxy2 : x = y
        · subst hxy2
          by_cases hyz : x < z
          · simp [hyz]
          · by_cases hyz2 : x = z
            · subst hyz2
              simp at hab hbc ⊢
              exact ih t u hab hbc
            · simp [hyz, hyz2] at hbc
        · simp [hxy, hxy2] at hab

theorem lexLe_ne_lt (a : List Nat) : ∀ b, lexLe a b = true → a ≠ b → lexLt a b = true := by
  induction a with
  | nil =>
    intro b _ hne
    match b with
    | [] => exact absurd rfl hne
    | _ :: _ => rfl
  | cons x s ih =>
    intro b hab hne
    match b with
    | [] => simp [lexLe] at hab
    | y :: t =>
      simp only [lexLe, lexLt] at hab ⊢
      by_cases hxy : x < y
      · simp [hxy]
      · by_cases hxy2 : x = y
        · subst hxy2
          simp only [hxy, if_false, if_pos rfl] at hab ⊢
          exact ih t hab (fun hst => hne (by rw [hst]))
        · simp [hxy, hxy2] at hab

theorem lexLt_asymm (a : List Nat) : ∀ b, lexLt a b = true → lexLt b a = true → False := by
  induction a with
  | nil =>
    intro b hab hba
    match b with
    | [] => simp [lexLt] at hab
    | _ :: _ => simp [lexLt] at hba
  | cons x s ih =>
    intro b hab hba
    match b with
    | [] => simp [lexLt] at hab
    | y :: t =>
      simp only [lexLt] at hab hba
      by_cases hxy : x < y
      · simp [show ¬ y < x by omega, show y ≠ x by omega] at hba
      · by_cases hxy2 : x = y
        · subst hxy2
          simp at hab hba
          exact ih t hab hba
        · simp [hxy, hxy2] at hab

theorem insortPair_pairwise {α : Type} (p : List Nat × α) (qs : List (List Nat × α))
    (h : qs.Pairwise (fun q1 q2 => lexLe q1.1 q2.1 = true)) :
    (insortPair p qs).Pairwise (fun q1 q2 => lexLe q1.1 q2.1 = true) := by
  induction qs with
  | nil => simp [insortPair]
  | cons q qs ih =>
    rw [List.pairwise_cons] at h
    by_cases hle : lexLe p.1 q.1 = true
    · simp only [insortPair, hle, if_true]
      rw [List.pairwise_cons]
      refine ⟨?_, by rw [List.pairwise_cons]; exact h⟩
      intro r hr
      rcases List.mem_cons.mp hr with hrq | hr
      · rw [hrq]; exact hle
      · exact lexLe_trans _ _ _ hle (h.1 r hr)
    · simp only [insortPair, hle, Bool.false_eq_true, if_false]
      rw [List.pairwise_cons]
      refine ⟨?_, ih h.2⟩
      intro r hr
      have hr2 : r ∈ p :: qs := (insortPair_perm p qs).mem_iff.mp hr
      rcases List.mem_cons.mp hr2 with hrp | hr2
      · rw [hrp]
        rcases lexLe_total p.1 q.1 with h1 | h1
        · exact absurd h1 hle
        · exact h1
      · exact h.1 r hr2

theorem sortPairs_pairwise {α : Type} (qs : List (List Nat × α)) :
    (sortPairs qs).Pairwise (fun q1 q2 => lexLe q1.1 q2.1 = true) := by
  induction qs with
  | nil => simp [sortPairs]
  | cons q qs ih => exact insortPair_pairwise q (sortPairs qs) ih

theorem sortPairs_pairwise_lt {α : Type} (qs : List (List Nat × α))
    (hk : (qs.map Prod.fst).Nodup) :
    (sortPairs qs).Pairwise (fun q1 q2 => lexLt q1.1 q2.1 = true) := by
  have hperm : ((sortPairs qs).map Prod.fst).Perm (qs.map Prod.fst) :=
    (sortPairs_perm qs).map Prod.fst
  have hnd : ((sortPairs qs).map Prod.fst).Nodup := hperm.nodup_iff.mpr hk
  have hne : (sortPairs qs).Pairwise (fun q1 q2 => q1.1 ≠ q2.1) := List.pairwise_map.mp hnd
  exact ((sortPairs_pairwise qs).and hne).imp (fun h => lexLe_ne_lt _ _ h.1 h.2)

theorem sortPairs_eq_of_perm {α : Type} (d d2 : List (List Nat × α))
    (hk : (d.map Prod.fst).Nodup) (hp : d2.Perm d) : sortPairs d2 = sortPairs d := by
  have hk2 : (d2.map Prod.fst).Nodup := ((hp.map Prod.fst).nodup_iff).mpr hk
  have hperm : (sortPairs d2).Perm (sortPairs d) :=
    ((sortPairs_perm d2).trans hp).trans (sortPairs_perm d).symm
  haveI : IsAntisymm (List Nat × α) (fun q1 q2 => lexLt q1.1 q2.1 = true) :=
    ⟨fun a b h1 h2 => (lexLt_asymm a.1 b.1 h1 h2).elim⟩
  exact List.eq_of_perm_of_sorted hperm (sortPairs_pairwise_lt d2 hk2) (sortPairs_pairwise_lt d hk)

theorem encKeyed_eq_map (d : List (List Nat × Bencode)) :
    encKeyed d = d.map (fun q => (q.1, encode_one q.2)) := by
  induction d with
  | nil => rfl
  | cons p ps ih => rw [show p = (p.1, p.2) from rfl, encKeyed, ih]; rfl

theorem canonPairs_eq_map (d : List (List Nat × Bencode)) :
    canonPairs d = d.map (fun q => (q.1, canonB q.2)) := by
  induction d with
  | nil => rfl
  | cons p ps ih => rw [show p = (p.1, p.2) from rfl, canonPairs, ih]; rfl

theorem canonItems_eq_map (l : List Bencode) : canonItems l = l.map canonB := by
  induction l with
  | nil => rfl
  | cons v vs ih => rw [canonItems, ih]; rfl

theorem sortPairs_encKeyed (d : List (List Nat × Bencode)) :
    sortPairs (encKeyed d) = encKeyed (sortPairs d) := by
  rw [encKeyed_eq_map, encKeyed_eq_map, sortPairs_map]

theorem sortPairs_canonPairs (d : List (List Nat × Bencode)) :
    canonPairs (sortPairs d) = sortPairs (canonPairs d) := by
  rw [canonPairs_eq_map, canonPairs_eq_map, sortPairs_map]

theorem joinKeyed_encKeyed (d : List (List Nat × Bencode)) :
    joinKeyed (encKeyed d) = (d.map (fun p => encode_string p.1 ++ encode_one p.2)).flatten := by
  induction d with
  | nil => rfl
  | cons p ps ih =>
    rw [show p = (p.1, p.2) from rfl, encKeyed, joinKeyed, ih]
    simp

theorem costB_pos (v : Bencode) : 1 ≤ costB v := by
  match v with
  | .str _ => exact Nat.le_refl 1
  | .int _ => exact Nat.le_refl 1
  | .list l => rw [costB]; omega
  | .dict d => rw [costB]; omega

theorem costItems_pos (l : List Bencode) : 1 ≤ costItems l := by
  match l with
  | [] => exact Nat.le_refl 1
  | v :: vs => rw [costItems]; omega

theorem costPairs_pos (d : List (List Nat × Bencode)) : 1 ≤ costPairs d := by
  match d with
  | [] => exact Nat.le_refl 1
  | (k, v) :: ps => rw [costPairs]; omega

theorem costPairs_eq_sum (d : List (List Nat × Bencode)) :
    costPairs d = (d.map (fun p => 1 + costB p.2)).sum + 1 := by
  induction d with
  | nil => rfl
  | cons p ps ih =>
    rw [show p = (p.1, p.2) from rfl, costPairs, ih]
    simp
    omega

theorem costPairs_perm (d d2 : List (List Nat × Bencode)) (hp : d.Perm d2) :
    costPairs d = costPairs d2 := by
  rw [costPairs_eq_sum, costPairs_eq_sum, (hp.map (fun p => 1 + costB p.2)).sum_eq]

theorem costPairs_sortPairs (d : List (List Nat × Bencode)) :
    costPairs (sortPairs d) = costPairs d :=
  costPairs_perm _ _ (sortPairs_perm d)

theorem costB_lt_of_mem_items (l : List Bencode) (v : Bencode) (h : v ∈ l) :
    costB v < costItems l := by
  induction l with
  | nil => cases h
  | cons w ws ih =>
    rcases List.mem_cons.mp h with hv | hv
    · rw [hv, costItems]; have := costItems_pos ws; omega
    · rw [costItems]; have := ih hv; omega

theorem costB_lt_of_mem_pairs (d : List (List Nat × Bencode)) (p : List Nat × Bencode)
    (h : p ∈ d) : costB p.2 < costPairs d := by
  induction d with
  | nil => cases h
  | cons q qs ih =>
    obtain ⟨qk, qv⟩ := q
    rcases List.mem_cons.mp h with hv | hv
    · rw [hv, costPairs]
      show costB qv < 1 + costB qv + costPairs qs
      have := costPairs_pos qs; omega
    · rw [costPairs]
      have := ih hv; omega

theorem wfItems_mem (l : List Bencode) (hw : wfItems l = true) (v : Bencode) (h : v ∈ l) :
    wfB v = true := by
  induction l with
  | nil => cases h
  | cons w ws ih =>
    rw [wfItems, Bool.and_eq_true] at hw
    rcases List.mem_cons.mp h with hv | hv
    · rw [hv]; exact hw.1
    · exact ih hw.2 hv

theorem wfPairs_mem (d : List (List Nat × Bencode)) (hw : wfPairs d = true)
    (p : List Nat × Bencode) (h : p ∈ d) : wfB p.2 = true := by
  induction d with
  | nil => cases h
  | cons q qs ih =>
    rw [show q = (q.1, q.2) from rfl, wfPairs, Bool.and_eq_true] at hw
    rcases List.mem_cons.mp h with hv | hv
    · rw [hv]; exact hw.1
    · exact ih hw.2 hv

theorem decode_encode_trio : ∀ f : Nat,
    (∀ v rest, costB v ≤ f →
      decode_one f (encode_one v ++ rest) = .ok (canonB v, rest)) ∧
    (∀ l rest, costItems l ≤ f →
      decode_items f (encItems l ++ 101 :: rest) = .ok (canonItems l, rest)) ∧
    (∀ d rest, costPairs d ≤ f →
      decode_pairs f (joinKeyed (encKeyed d) ++ 101 :: rest) = .ok (canonPairs d, rest)) := by
  intro f
  induction f with
  | zero =>
    refine ⟨?_, ?_, ?_⟩
    · intro v rest hc; have := costB_pos v; omega
    · intro l rest hc; have := costItems_pos l; omega
    · intro d rest hc; have := costPairs_pos d; omega
  | succ f ih =>
    obtain ⟨ih1, ih2, ih3⟩ := ih
    refine ⟨?_, ?_, ?_⟩
    · intro v rest hc
      match v with
      | .str s =>
        obtain ⟨c, t, hct, hd⟩ := encode_string_cons s
        have hstream : encode_one (.str s) ++ rest = c :: (t ++ rest) := by
          show encode_string s ++ rest = c :: (t ++ rest)
          rw [hct]; rfl
        have hback : c :: (t ++ rest) = encode_string s ++ rest := by rw [hct]; rfl
        rw [hstream]
        simp only [decode_one, hd, if_true, hback, read_string_encoded s rest, exbind_ok]
        rfl
      | .int i =>
        have hstream : encode_one (.int i) ++ rest = 105 :: (intDigits i ++ 101 :: rest) := by
          show encode_int i ++ rest = _
          simp [encode_int]
        have hback : (105 : Nat) :: (intDigits i ++ 101 :: rest) = encode_int i ++ rest := by
          simp [encode_int]
        rw [hstream]
        simp only [decode_one, show isDigitB 105 = false from rfl, Bool.false_eq_true, if_false,
          if_pos rfl, hback, read_integer_encoded i rest, exbind_ok]
        rfl
      | .list l =>
        have hcl : costItems l ≤ f := by rw [costB] at hc; omega
        have hstream : encode_one (.list l) ++ rest = 108 :: (encItems l ++ 101 :: rest) := by
          show 108 :: encItems l ++ [101] ++ rest = _
          simp
        rw [hstream]
        simp only [decode_one, show isDigitB 108 = false from rfl, Bool.false_eq_true, if_false,
          show (108 : Nat) ≠ 105 by omega, show (108 : Nat) = 108 from rfl, if_true, if_pos rfl,
          expect, exbind_ok, ih2 l rest hcl]
        rfl
      | .dict d =>
        have hcd : costPairs (sortPairs d) ≤ f := by
          rw [costPairs_sortPairs]; rw [costB] at hc; omega
        have hstream : encode_one (.dict d) ++ rest
            = 100 :: (joinKeyed (encKeyed (sortPairs d)) ++ 101 :: rest) := by
          show 100 :: joinKeyed (sortPairs (encKeyed d)) ++ [101] ++ rest = _
          rw [sortPairs_encKeyed]
          simp
        rw [hstream]
        simp only [decode_one, show isDigitB 100 = false from rfl, Bool.false_eq_true, if_false,
          show (100 : Nat) ≠ 105 by omega, show (100 : Nat) ≠ 108 by omega,
          show (100 : Nat) = 100 from rfl, if_true, if_pos rfl, expect, exbind_ok,
          ih3 (sortPairs d) rest hcd]
        show Except.ok (Bencode.dict (canonPairs (sortPairs d)), rest)
            = .ok (canonB (.dict d), rest)
        rw [sortPairs_canonPairs, canonB]
    · intro l rest hc
      match l with
      | [] =>
        show decode_items (f + 1) (101 :: rest) = .ok (canonItems [], rest)
        simp [decode_items, canonItems]
      | v :: vs =>
        have hcv : costB v ≤ f := by rw [costItems] at hc; have := costItems_pos vs; omega
        have hcvs : costItems vs ≤ f := by rw [costItems] at hc; have := costB_pos v; omega
        obtain ⟨c, t, hct, hne⟩ := encode_one_cons v
        have hstream : encItems (v :: vs) ++ 101 :: rest
            = c :: (t ++ (encItems vs ++ 101 :: rest)) := by
          rw [encItems, hct]; simp
        have hback : c :: (t ++ (encItems vs ++ 101 :: rest))
            = encode_one v ++ (encItems vs ++ 101 :: rest) := by
          rw [hct]; rfl
        rw [hstream]
        simp only [decode_items, hne, if_false, hback,
          ih1 v (encItems vs ++ 101 :: rest) hcv, exbind_ok, ih2 vs rest hcvs]
        rfl
    · intro d rest hc
      match d with
      | [] =>
        show decode_pairs (f + 1) (101 :: rest) = .ok (canonPairs [], rest)
        simp [decode_pairs, canonPairs]
      | (k, v) :: ps =>
        have hcv : costB v ≤ f := by rw [costPairs] at hc; have := costPairs_pos ps; omega
        have hcps : costPairs ps ≤ f := by rw [costPairs] at hc; have := costB_pos v; omega
        obtain ⟨c, t, hct, hd⟩ := encode_string_cons k
        have hne : c ≠ 101 := by simp [isDigitB] at hd; omega
        have hstream : joinKeyed (encKeyed ((k, v) :: ps)) ++ 101 :: rest
            = c :: (t ++ (encode_one v ++ (joinKeyed (encKeyed ps) ++ 101 :: rest))) := by
          rw [encKeyed, joinKeyed, hct]; simp
        have hback : c :: (t ++ (encode_one v ++ (joinKeyed (encKeyed ps) ++ 101 :: rest)))
            = encode_string k ++ (encode_one v ++ (joinKeyed (encKeyed ps) ++ 101 :: rest)) := by
          rw [hct]; rfl
        rw [hstream]
        simp only [decode_pairs, hne, if_false, hback,
          read_string_encoded k (encode_one v ++ (joinKeyed (encKeyed ps) ++ 101 :: rest)),
          exbind_ok, ih1 v (joinKeyed (encKeyed ps) ++ 101 :: rest) hcv,
          ih3 ps rest hcps]
        rfl

theorem lookupKey_distinct (d : List (List Nat × Bencode)) (k : List Nat) (v : Bencode)
    (hd : distinctKeys (d.map Prod.fst) = true) (hm : (k, v) ∈ d) :
    lookupKey k d = some v := by
  induction d with
  | nil => cases hm
  | cons q qs ih =>
    obtain ⟨qk, qv⟩ := q
    rw [List.map_cons, distinctKeys, Bool.and_eq_true] at hd
    rcases List.mem_cons.mp hm with hv | hv
    · injection hv with h1 h2
      subst h1; subst h2
      simp [lookupKey]
    · have hnotin : qk ∉ qs.map Prod.fst := by simpa using hd.1
      have hne : qk ≠ k := by
        intro he
        exact hnotin (by rw [he]; exact List.mem_map.mpr ⟨(k, v), hv, rfl⟩)
      simp [lookupKey, hne, ih hd.2 hv]

theorem pyEqPairs_of_lookup (d : List (List Nat × Bencode)) :
    ∀ q : List (List Nat × Bencode),
      (∀ p ∈ q, ∃ w, lookupKey p.1 d = some w ∧ pyEqB p.2 w = true) →
      pyEqPairs q d = true := by
  intro q
  induction q with
  | nil => intro _; rfl
  | cons p ps ih =>
    intro h
    obtain ⟨pk, pv⟩ := p
    obtain ⟨w, hw, he⟩ := h (pk, pv) (List.mem_cons_self _ _)
    rw [pyEqPairs, hw, Bool.and_eq_true]
    exact ⟨he, ih (fun r hr => h r (List.mem_cons_of_mem _ hr))⟩

theorem pyEqItems_pointwise (l : List Bencode)
    (h : ∀ v ∈ l, pyEqB (canonB v) v = true) : pyEqItems (canonItems l) l = true := by
  induction l with
  | nil => rfl
  | cons v vs ih =>
    rw [canonItems, pyEqItems, Bool.and_eq_true]
    exact ⟨h v (List.mem_cons_self _ _), ih (fun w hw => h w (List.mem_cons_of_mem _ hw))⟩

theorem pyEq_canonB (n : Nat) : ∀ v : Bencode, costB v ≤ n → wfB v = true →
    pyEqB (canonB v) v = true := by
  induction n using Nat.strong_induction_on with
  | _ n IH =>
    intro v hc hw
    match v with
    | .str s => simp [canonB, pyEqB]
    | .int i => simp [canonB, pyEqB]
    | .list l =>
      rw [canonB, pyEqB]
      refine pyEqItems_pointwise l (fun w hwm => ?_)
      have hlt : costB w < n := by
        have h1 := costB_lt_of_mem_items l w hwm
        rw [costB] at hc
        omega
      exact IH (costB w) hlt w (Nat.le_refl _) (wfItems_mem l (by rw [wfB] at hw; exact hw) w hwm)
    | .dict d =>
      rw [wfB, Bool.and_eq_true] at hw
      rw [canonB, pyEqB, Bool.and_eq_true]
      constructor
      · have h1 : (sortPairs (canonPairs d)).length = d.length := by
          rw [(sortPairs_perm (canonPairs d)).length_eq, canonPairs_eq_map, List.length_map]
        simp [h1]
      · refine pyEqPairs_of_lookup d _ (fun p hp => ?_)
        have hp2 : p ∈ canonPairs d := (sortPairs_perm (canonPairs d)).mem_iff.mp hp
        rw [canonPairs_eq_map] at hp2
        obtain ⟨q, hq, hpq⟩ := List.mem_map.mp hp2
        refine ⟨q.2, ?_, ?_⟩
        · rw [← hpq]
          exact lookupKey_distinct d q.1 q.2 hw.1 (by rw [show (q.1, q.2) = q from rfl]; exact hq)
        · rw [← hpq]
          have hlt : costB q.2 < n := by
            have h1 := costB_lt_of_mem_pairs d q hq
            rw [costB] at hc
            omega
          exact IH (costB q.2) hlt q.2 (Nat.le_refl _) (wfPairs_mem d hw.2 q hq)

theorem readexactly_exact (t s : List Nat) (n : Nat) (h : t.length = n) :
    readexactly n (t ++ s) = .ok (t, s) := by
  subst h
  rw [readexactly, if_neg (by simp), List.take_left, List.drop_left]

theorem readexactly_cons5 (a b c d e : Nat) (s : List Nat) :
    readexactly 5 (a :: b :: c :: d :: e :: s) = .ok ([a, b, c, d, e], s) := by
  rw [readexactly, if_neg (by simp only [List.length_cons]; omega)]
  rfl

theorem readexactly_cons8 (a b c d e g h1 h2 : Nat) (s : List Nat) :
    readexactly 8 (a :: b :: c :: d :: e :: g :: h1 :: h2 :: s)
      = .ok ([a, b, c, d, e, g, h1, h2], s) := by
  rw [readexactly, if_neg (by simp only [List.length_cons]; omega)]
  rfl

theorem unpackIB_be32 (n t : Nat) (h : n < 4294967296) :
    unpackIB (be32 n ++ [t]) = (n, t) := by
  show unpackIB [n / 16777216 % 256, n / 65536 % 256, n / 256 % 256, n % 256, t] = (n, t)
  rw [unpackIB, Prod.mk.injEq]
  exact ⟨by omega, rfl⟩

theorem unpackII_be32 (m n : Nat) (hm : m < 4294967296) (hn : n < 4294967296) :
    unpackII (be32 m ++ be32 n) = (m, n) := by
  show unpackII [m / 16777216 % 256, m / 65536 % 256, m / 256 % 256, m % 256,
    n / 16777216 % 256, n / 65536 % 256, n / 256 % 256, n % 256] = (m, n)
  rw [unpackII, Prod.mk.injEq]
  exact ⟨by omega, by omega⟩

theorem recvPiece_piece (f : Nat) (data : List Nat) (offset : Nat) (block rest : List Nat)
    (ho : offset < 4294967296) (hl : 9 + block.length < 4294967296) :
    recvPiece (f + 1) data (pieceMsgBytes offset block ++ rest)
      = .ok (setSlice data offset block, rest) := by
  have hstream : pieceMsgBytes offset block ++ rest
      = (9 + block.length) / 16777216 % 256 :: (9 + block.length) / 65536 % 256 ::
        (9 + block.length) / 256 % 256 :: (9 + block.length) % 256 :: 7 ::
        (0 :: 0 :: 0 :: 0 :: offset / 16777216 % 256 :: offset / 65536 % 256 ::
          offset / 256 % 256 :: offset % 256 :: (block ++ rest)) := by
    simp [pieceMsgBytes, be32]
  have hIB : unpackIB [(9 + block.length) / 16777216 % 256, (9 + block.length) / 65536 % 256,
      (9 + block.length) / 256 % 256, (9 + block.length) % 256, 7] = (9 + block.length, 7) :=
    unpackIB_be32 (9 + block.length) 7 hl
  have hII : unpackII [0, 0, 0, 0, offset / 16777216 % 256, offset / 65536 % 256,
      offset / 256 % 256, offset % 256] = (0, offset) :=
    unpackII_be32 0 offset (by omega) ho
  rw [recvPiece, hstream, readexactly_cons5]
  simp only [exbind_ok, hIB]
  rw [if_neg (by omega), readexactly_cons8]
  simp only [exbind_ok, hII]
  rw [if_neg (by omega), show 9 + block.length - 9 = block.length by omega,
    readexactly_exact block rest _ rfl]
  simp only [exbind_ok]

theorem blockPlan_eq (pl : Nat) :
    blockPlan pl = if pl % 16384 > 0 then (pl / 16384 + 1, pl % 16384)
      else (pl / 16384, 16384) := by
  have h1 : (16 : Nat) * 2 ^ 10 = 16384 := by norm_num
  simp only [blockPlan, h1]

theorem blockPlan_facts (pl : Nat) (h : 0 < pl) :
    0 < (blockPlan pl).1 ∧ 0 < (blockPlan pl).2 ∧ (blockPlan pl).2 ≤ 16384 ∧
    ((blockPlan pl).1 - 1) * 16384 + (blockPlan pl).2 = pl ∧
    pl ≤ (blockPlan pl).1 * 16384 := by
  rw [blockPlan_eq]
  by_cases hr : pl % 16384 > 0
  · rw [if_pos hr]
    refine ⟨?_, ?_, ?_, ?_, ?_⟩
    · show 0 < pl / 16384 + 1; omega
    · show 0 < pl % 16384; omega
    · show pl % 16384 ≤ 16384; omega
    · show (pl / 16384 + 1 - 1) * 16384 + pl % 16384 = pl; omega
    · show pl ≤ (pl / 16384 + 1) * 16384; omega
  · rw [if_neg hr]
    refine ⟨?_, ?_, ?_, ?_, ?_⟩
    · show 0 < pl / 16384; omega
    · show 0 < 16384; omega
    · show (16384 : Nat) ≤ 16384; omega
    · show (pl / 16384 - 1) * 16384 + 16384 = pl; omega
    · show pl ≤ pl / 16384 * 16384; omega

theorem blockLoop_fills (pl : Nat) (S : List Nat) (hpl : 0 < pl) (hb : pl < 4294967296)
    (hS : S.length = pl) :
    ∀ (k i : Nat) (data out : List Nat),
      i + k = (blockPlan pl).1 →
      data = S.take (min (i * 16384) pl) ++ List.replicate (pl - i * 16384) 0 →
      ∃ out2,
        blockLoop (blockPlan pl).1 16384 (blockPlan pl).2 (List.range' i k) data
          (pieceAnswers (blockPlan pl).1 16384 (blockPlan pl).2 S (List.range' i k)) out
        = .ok (true, S, out2) := by
  obtain ⟨hbc, hlbs, hlbs2, hsum, hcover⟩ := blockPlan_facts pl hpl
  intro k
  induction k with
  | zero =>
    intro i data out h1 h2
    have htp : S.take pl = S := by rw [← hS]; exact List.take_length S
    have hdata : data = S := by
      rw [h2, show min (i * 16384) pl = pl by omega, show pl - i * 16384 = 0 by omega,
        List.replicate_zero, List.append_nil, htp]
    refine ⟨out, ?_⟩
    rw [show List.range' i 0 = [] from rfl, hdata]
    rfl
  | succ k ih =>
    intro i data out h1 h2
    have hile : i ≤ (blockPlan pl).1 - 1 := by omega
    have hoff : i * 16384 + (if i < (blockPlan pl).1 - 1 then 16384 else (blockPlan pl).2)
        ≤ pl := by
      by_cases hc : i < (blockPlan pl).1 - 1
      · rw [if_pos hc]; omega
      · rw [if_neg hc]
        have : i = (blockPlan pl).1 - 1 := by omega
        omega
    have hszpos :
        0 < (if i < (blockPlan pl).1 - 1 then 16384 else (blockPlan pl).2) := by
      by_cases hc : i < (blockPlan pl).1 - 1
      · rw [if_pos hc]; omega
      · rw [if_neg hc]; omega
    have ho : i * 16384 < 4294967296 := by omega
    have hblk : ((S.drop (i * 16384)).take
        (if i < (blockPlan pl).1 - 1 then 16384 else (blockPlan pl).2)).length
        = (if i < (blockPlan pl).1 - 1 then 16384 else (blockPlan pl).2) := by
      rw [List.length_take, List.length_drop, hS]
      omega
    have hl : 9 + ((S.drop (i * 16384)).take
        (if i < (blockPlan pl).1 - 1 then 16384 else (blockPlan pl).2)).length
        < 4294967296 := by
      rw [hblk]
      by_cases hc : i < (blockPlan pl).1 - 1
      · rw [if_pos hc]; omega
      · rw [if_neg hc]; omega
    have hminoff : min (i * 16384) pl = i * 16384 := by omega
    have hlen : (S.take (i * 16384)).length = i * 16384 := by
      rw [List.length_take, hS]; omega
    have htake : data.take (i * 16384) = S.take (i * 16384) := by
      rw [h2, hminoff]
      exact List.take_left' hlen
    have hdrop : data.drop (i * 16384 +
        (if i < (blockPlan pl).1 - 1 then 16384 else (blockPlan pl).2))
        = List.replicate (pl - i * 16384 -
            (if i < (blockPlan pl).1 - 1 then 16384 else (blockPlan pl).2)) 0 := by
      rw [h2, hminoff,
        show i * 16384 + (if i < (blockPlan pl).1 - 1 then 16384 else (blockPlan pl).2)
          = (S.take (i * 16384)).length + (if i < (blockPlan pl).1 - 1 then 16384
            else (blockPlan pl).2) by rw [hlen],
        List.drop_append, List.drop_replicate]
    have hA : min ((i + 1) * 16384) pl
        = i * 16384 + (if i < (blockPlan pl).1 - 1 then 16384 else (blockPlan pl).2) := by
      by_cases hc : i < (blockPlan pl).1 - 1
      · rw [if_pos hc]; omega
      · rw [if_neg hc]
        have : i = (blockPlan pl).1 - 1 := by omega
        omega
    have hB : pl - (i + 1) * 16384
        = pl - i * 16384 -
          (if i < (blockPlan pl).1 - 1 then 16384 else (blockPlan pl).2) := by
      by_cases hc : i < (blockPlan pl).1 - 1
      · rw [if_pos hc]; omega
      · rw [if_neg hc]
        have : i = (blockPlan pl).1 - 1 := by omega
        omega
    have hnew : setSlice data (i * 16384)
        ((S.drop (i * 16384)).take
          (if i < (blockPlan pl).1 - 1 then 16384 else (blockPlan pl).2))
        = S.take (min ((i + 1) * 16384) pl) ++ List.replicate (pl - (i + 1) * 16384) 0 := by
      rw [setSlice, hblk, htake, hdrop, hA, hB, ← List.take_add]
    obtain ⟨out2, hrec⟩ := ih (i + 1)
      (setSlice data (i * 16384)
        ((S.drop (i * 16384)).take
          (if i < (blockPlan pl).1 - 1 then 16384 else (blockPlan pl).2)))
      (out ++ requestBytes (i * 16384)
        (if i < (blockPlan pl).1 - 1 then 16384 else (blockPlan pl).2))
      (by omega) hnew
    refine ⟨out2, ?_⟩
    rw [List.range'_succ]
    simp only [pieceAnswers, blockLoop]
    rw [recvPiece_piece _ data (i * 16384) _ _ ho hl]
    exact hrec

/-- C2: with a peer that completes the handshake (any 68-byte reply), sends a
    bitfield, unchokes, and answers every request with a piece message
    carrying exactly the requested bytes, `connect_and_fetch` terminates
    successfully: it returns the Python value `True`, and its piece buffer
    holds exactly the concatenation of the served blocks in offset order,
    namely the full content `S` of length `piece_length`. The buffer itself
    is only the second component of the model state: the source returns the
    bare boolean and discards the buffer (see the claim record). -/
theorem C2_compliant_fetch (pl : Nat) (S hs bf ih : List Nat)
    (hpl : 0 < pl) (hb : pl < 4294967296) (hS : S.length = pl)
    (hhs : hs.length = 68) (hbf : bf.length + 1 < 4294967296) :
    ∃ out, connect_and_fetch pl ih
        (hs ++ (bitfieldMsgBytes bf ++ (unchokeBytes ++
          pieceAnswers (blockPlan pl).1 (16 * 2 ^ 10) (blockPlan pl).2 S
            (List.range (blockPlan pl).1))))
      = .ok (true, S, out) := by
  have h1616 : (16 : Nat) * 2 ^ 10 = 16384 := by norm_num
  have hzero : List.replicate pl 0
      = S.take (min (0 * 16384) pl) ++ List.replicate (pl - 0 * 16384) 0 := by
    simp
  obtain ⟨out2, hloop⟩ := blockLoop_fills pl S hpl hb hS (blockPlan pl).1 0
    (List.replicate pl 0) (handshakeBytes ih MY_PEER_ID ++ interestedBytes)
    (by omega) hzero
  refine ⟨out2, ?_⟩
  rw [h1616, List.range_eq_range']
  simp only [connect_and_fetch]
  rw [readexactly_exact hs _ 68 hhs]
  simp only [exbind_ok]
  have hbfstream : bitfieldMsgBytes bf ++ (unchokeBytes ++
      pieceAnswers (blockPlan pl).1 16384 (blockPlan pl).2 S
        (List.range' 0 (blockPlan pl).1))
      = (bf.length + 1) / 16777216 % 256 :: (bf.length + 1) / 65536 % 256 ::
        (bf.length + 1) / 256 % 256 :: (bf.length + 1) % 256 :: 5 ::
        (bf ++ (unchokeBytes ++ pieceAnswers (blockPlan pl).1 16384 (blockPlan pl).2 S
          (List.range' 0 (blockPlan pl).1))) := by
    simp [bitfieldMsgBytes, be32]
  rw [hbfstream, readexactly_cons5]
  simp only [exbind_ok]
  have hIB : unpackIB [(bf.length + 1) / 16777216 % 256, (bf.length + 1) / 65536 % 256,
      (bf.length + 1) / 256 % 256, (bf.length + 1) % 256, 5] = (bf.length + 1, 5) :=
    unpackIB_be32 (bf.length + 1) 5 hbf
  rw [hIB]
  rw [if_neg (by omega), if_neg (by omega)]
  rw [show bf.length + 1 - 1 = bf.length by omega, readexactly_exact bf _ _ rfl]
  simp only [exbind_ok]
  have hustream : unchokeBytes ++ pieceAnswers (blockPlan pl).1 16384 (blockPlan pl).2 S
      (List.range' 0 (blockPlan pl).1)
      = 0 :: 0 :: 0 :: 1 :: 1 :: pieceAnswers (blockPlan pl).1 16384 (blockPlan pl).2 S
        (List.range' 0 (blockPlan pl).1) := by
    simp [unchokeBytes]
  rw [hustream, readexactly_cons5]
  simp only [exbind_ok]
  rw [show unpackIB [0, 0, 0, 1, 1] = (1, 1) from rfl]
  rw [if_neg (by simp)]
  rw [h1616, List.range_eq_range']
  exact hloop

/-- C1: for every representable value (dicts carry unique byte-string keys,
    as Python dicts do), decoding the encoding succeeds, consumes the whole
    encoding, and yields a value Python-equal to the original: bytes and
    ints by value, lists pointwise, dicts as finite maps. Any fuel at least
    the decoding cost of the value works. -/
theorem C1_roundtrip (v : Bencode) (f : Nat) (hw : wfB v = true) (hf : costB v ≤ f) :
    ∃ w, decode_one f (encode_one v) = .ok (w, []) ∧ pyEqB w v = true := by
  refine ⟨canonB v, ?_, pyEq_canonB (costB v) v (Nat.le_refl _) hw⟩
  have h := (decode_encode_trio f).1 v [] hf
  rwa [List.append_nil] at h

/-- Witness for C1 at a nested dictionary value. -/
theorem C1_roundtrip_witness :
    ∃ w, decode_one 16
        (encode_one (Bencode.dict [([98], .int 1), ([97], .list [.str [120]])]))
      = .ok (w, []) ∧
      pyEqB w (Bencode.dict [([98], .int 1), ([97], .list [.str [120]])]) = true :=
  C1_roundtrip (Bencode.dict [([98], .int 1), ([97], .list [.str [120]])]) 16
    (by decide) (by decide)

/-- Witness for C2 at piece length 2 with content [10, 20], an empty
    bitfield payload, and an all-zero handshake reply. -/
theorem C2_compliant_fetch_witness :
    ∃ out, connect_and_fetch 2 (List.replicate 20 0)
        (List.replicate 68 0 ++ (bitfieldMsgBytes [] ++ (unchokeBytes ++
          pieceAnswers (blockPlan 2).1 (16 * 2 ^ 10) (blockPlan 2).2 [10, 20]
            (List.range (blockPlan 2).1))))
      = .ok (true, [10, 20], out) :=
  C2_compliant_fetch 2 [10, 20] (List.replicate 68 0) [] (List.replicate 20 0)
    (by decide) (by decide) rfl (by decide) (by decide)

/-- C3: a choke message (length 1, type 0) arriving right after the
    interested message is ACCEPTED by the engine, because the source guards
    the raise with (length differs from 1) AND (type differs from 1), where
    the intent was OR; the fetch then proceeds and
    completes, contradicting the claim that any non-unchoke message makes
    the fetch fail with UnexpectedMessage. -/
theorem C3_choke_accepted :
    ∃ out, connect_and_fetch 1 (List.replicate 20 0)
        (List.replicate 68 0 ++ [0, 0, 0, 1, 5] ++ [0, 0, 0, 1, 0] ++
          [0, 0, 0, 10, 7, 0, 0, 0, 0, 0, 0, 0, 0, 99])
      = .ok (true, [99], out) :=
  ⟨_, rfl⟩

/-- C4: the block plan: the count equals the ceiling of piece_length over
    16384, the last block size is the remainder piece_length minus
    (count - 1) * 16384, positive and at most 16384; and the three concrete
    plans of the claim. -/
theorem C4_block_plan (pl : Nat) (h : 0 < pl) :
    (blockPlan pl).1 = (pl + 16384 - 1) / 16384 ∧
    (blockPlan pl).2 = pl - ((blockPlan pl).1 - 1) * 16384 ∧
    0 < (blockPlan pl).2 ∧ (blockPlan pl).2 ≤ 16384 ∧
    blockSizes 16384 = [16384] ∧ blockSizes 20000 = [16384, 3616] ∧
    blockSizes 32768 = [16384, 16384] := by
  obtain ⟨hbc, hlbs, hlbs2, hsum, hcover⟩ := blockPlan_facts pl h
  exact ⟨by omega, by omega, hlbs, hlbs2, rfl, rfl, rfl⟩

/-- Witness for C4 at piece length 20000. -/
theorem C4_block_plan_witness :
    (blockPlan 20000).1 = (20000 + 16384 - 1) / 16384 ∧
    (blockPlan 20000).2 = 20000 - ((blockPlan 20000).1 - 1) * 16384 ∧
    0 < (blockPlan 20000).2 ∧ (blockPlan 20000).2 ≤ 16384 ∧
    blockSizes 16384 = [16384] ∧ blockSizes 20000 = [16384, 3616] ∧
    blockSizes 32768 = [16384, 16384] :=
  C4_block_plan 20000 (by decide)

/-- C5: for a dictionary with distinct byte-string keys, the encoding is
    the byte `d`, then the key-value pairs in ascending byte-lexicographic
    key order (each as encode_string of the key followed by the encoding of
    the value), then `e`; the key sequence is strictly ascending; and any
    permutation of the pairs (any insertion order) encodes identically. -/
theorem C5_dict_sorted (d d2 : List (List Nat × Bencode))
    (hk : (d.map Prod.fst).Nodup) (hp : d2.Perm d) :
    encode_dict d = 100 :: ((sortPairs d).map
        (fun p => encode_string p.1 ++ encode_one p.2)).flatten ++ [101] ∧
    ((sortPairs d).map Prod.fst).Pairwise (fun a b => lexLt a b = true) ∧
    encode_dict d2 = encode_dict d := by
  refine ⟨?_, ?_, ?_⟩
  · rw [encode_dict, sortPairs_encKeyed, joinKeyed_encKeyed]
  · rw [List.pairwise_map]
    exact sortPairs_pairwise_lt d hk
  · have hsort : sortPairs d2 = sortPairs d := sortPairs_eq_of_perm d d2 hk hp
    rw [encode_dict, encode_dict, sortPairs_encKeyed, sortPairs_encKeyed, hsort]

/-- Witness for C5 at the dictionary mapping key `b` to 1 and key `a` to 2,
    inserted in that order, and its reversed insertion order. -/
theorem C5_dict_sorted_witness :
    encode_dict [([98], Bencode.int 1), ([97], Bencode.int 2)]
      = 100 :: ((sortPairs [([98], Bencode.int 1), ([97], Bencode.int 2)]).map
          (fun p => encode_string p.1 ++ encode_one p.2)).flatten ++ [101] ∧
    ((sortPairs [([98], Bencode.int 1), ([97], Bencode.int 2)]).map Prod.fst).Pairwise
      (fun a b => lexLt a b = true) ∧
    encode_dict [([97], Bencode.int 2), ([98], Bencode.int 1)]
      = encode_dict [([98], Bencode.int 1), ([97], Bencode.int 2)] :=
  C5_dict_sorted [([98], Bencode.int 1), ([97], Bencode.int 2)]
    [([97], Bencode.int 2), ([98], Bencode.int 1)]
    (by decide) (List.Perm.swap ([98], Bencode.int 1) ([97], Bencode.int 2) [])

/-- C6: decoding consumes exactly one value from the front of the cursor and
    leaves the cursor right after it: on any input that begins with the
    encoding of a value, one decode returns with exactly the trailing bytes
    left; and decoding 4:spam4:eggs as two consecutive top-level reads
    yields spam then eggs. -/
theorem C6_prefix_consuming (v : Bencode) (rest : List Nat) (f : Nat) (hf : costB v ≤ f) :
    (∃ w, decode_one f (encode_one v ++ rest) = .ok (w, rest)) ∧
    decode_one 1 [52, 58, 115, 112, 97, 109, 52, 58, 101, 103, 103, 115]
      = .ok (.str [115, 112, 97, 109], [52, 58, 101, 103, 103, 115]) ∧
    decode_one 1 [52, 58, 101, 103, 103, 115] = .ok (.str [101, 103, 103, 115], []) :=
  ⟨⟨canonB v, (decode_encode_trio f).1 v rest hf⟩, rfl, rfl⟩

/-- Witness for C6 at the byte string `a` followed by three trailing bytes. -/
theorem C6_prefix_consuming_witness :
    (∃ w, decode_one 1 (encode_one (.str [97]) ++ [1, 2, 3]) = .ok (w, [1, 2, 3])) ∧
    decode_one 1 [52, 58, 115, 112, 97, 109, 52, 58, 101, 103, 103, 115]
      = .ok (.str [115, 112, 97, 109], [52, 58, 101, 103, 103, 115]) ∧
    decode_one 1 [52, 58, 101, 103, 103, 115] = .ok (.str [101, 103, 103, 115], []) :=
  C6_prefix_consuming (.str [97]) [1, 2, 3] 1 (by decide)

/-- C7: the decoder fails on each malformed class: any unrecognized leading
    byte (not a digit, not i, l, d) raises NotImplementedError; the string
    5:spam whose declared length exceeds the remaining input raises
    IndexError; and a missing terminator raises IndexError for an integer
    (i42), a list (l4:spam), and a dictionary (d3:keyi1e). -/
theorem C7_malformed_inputs :
    (∀ c s f, isDigitB c = false → c ≠ 105 → c ≠ 108 → c ≠ 100 →
      decode_one (f + 1) (c :: s) = .error .notImpl) ∧
    (∀ f, decode_one (f + 1) [53, 58, 115, 112, 97, 109] = .error .indexError) ∧
    (∀ f, decode_one (f + 1) [105, 52, 50] = .error .indexError) ∧
    (∀ f, decode_one (f + 3) [108, 52, 58, 115, 112, 97, 109] = .error .indexError) ∧
    (∀ f, decode_one (f + 3) [100, 51, 58, 107, 101, 121, 105, 49, 101]
      = .error .indexError) := by
  refine ⟨?_, fun f => rfl, fun f => rfl, fun f => rfl, fun f => rfl⟩
  intro c s f h1 h2 h3 h4
  simp [decode_one, h1, h2, h3, h4]

/-- Witness for C7 at the input consisting of the single byte x. -/
theorem C7_malformed_inputs_witness : decode_one 1 [120] = .error .notImpl :=
  C7_malformed_inputs.1 120 [] 0 (by decide) (by decide) (by decide) (by decide)

/-- C8: for 20-byte info hash and peer id, the handshake written by the
    engine is exactly the length byte 19, the 19-byte protocol name, 8 zero
    bytes, the info hash, and the peer id, 68 bytes in total. -/
theorem C8_handshake (ih pid : List Nat) (h1 : ih.length = 20) (h2 : pid.length = 20) :
    handshakeBytes ih pid
      = 19 :: protocolName ++ List.replicate 8 0 ++ ih ++ pid ∧
    (handshakeBytes ih pid).length = 68 := by
  have hs2 : sfield 20 ih = ih := by
    rw [sfield, h1, List.take_of_length_le (by omega)]
    simp
  have hs3 : sfield 20 pid = pid := by
    rw [sfield, h2, List.take_of_length_le (by omega)]
    simp
  have heq : handshakeBytes ih pid = 19 :: protocolName ++ List.replicate 8 0 ++ ih ++ pid := by
    rw [handshakeBytes, hs2, hs3]
    rfl
  refine ⟨heq, ?_⟩
  rw [heq]
  simp [protocolName, h1, h2]

/-- Witness for C8 at concrete 20-byte info hash and peer id. -/
theorem C8_handshake_witness :
    handshakeBytes (List.replicate 20 1) (List.replicate 20 2)
      = 19 :: protocolName ++ List.replicate 8 0 ++
          List.replicate 20 1 ++ List.replicate 20 2 ∧
    (handshakeBytes (List.replicate 20 1) (List.replicate 20 2)).length = 68 :=
  C8_handshake (List.replicate 20 1) (List.replicate 20 2) (by decide) (by decide)

/-- C9: the block-request loop always reads five bytes per message header,
    so a four-byte keep-alive (length 0, no type byte) makes it swallow the
    first byte of the following message and desynchronize: with a keep-alive
    inserted before the piece reply the fetch crashes with an incomplete
    read, while the identical stream without the keep-alive completes,
    contradicting the claim that every non-piece message is discarded with
    no extra bytes taken. -/
theorem C9_keepalive_desync :
    connect_and_fetch 1 (List.replicate 20 0)
        (List.replicate 68 0 ++ [0, 0, 0, 1, 5] ++ [0, 0, 0, 1, 1] ++ [0, 0, 0, 0] ++
          [0, 0, 0, 10, 7, 0, 0, 0, 0, 0, 0, 0, 0, 99])
      = .error .incompleteRead ∧
    (∃ out, connect_and_fetch 1 (List.replicate 20 0)
        (List.replicate 68 0 ++ [0, 0, 0, 1, 5] ++ [0, 0, 0, 1, 1] ++
          [0, 0, 0, 10, 7, 0, 0, 0, 0, 0, 0, 0, 0, 99])
      = .ok (true, [99], out)) :=
  ⟨rfl, ⟨_, rfl⟩⟩

/-- C10 counterexample: Decoder.decode on the input -5:rest does fail — the
    leading minus byte is not a digit and not i, l, or d, so decode_one
    raises NotImplementedError instead of returning the empty byte string. -/
theorem C10_counterexample :
    decode_one 1 [45, 53, 58, 114, 101, 115, 116] = .error .notImpl := rfl

/-- C10 amended: read_string (not top-level decode) on a header declaring a
    negative length parses the negative number, consumes the colon and zero
    payload bytes, and returns the empty byte string; top-level decode on
    the same input fails with NotImplementedError because the minus sign is
    not a recognized leading byte. -/
theorem C10_negative_length (ds rest : List Nat) (f : Nat)
    (h1 : ds ≠ []) (h2 : ds.all isDigitB = true) :
    read_string (45 :: (ds ++ 58 :: rest)) = .ok ([], rest) ∧
    decode_one (f + 1) (45 :: (ds ++ 58 :: rest)) = .error .notImpl := by
  constructor
  · have hsplit : (45 :: (ds ++ 58 :: rest)) = (45 :: ds) ++ 58 :: rest := by simp
    have hall : (45 :: ds).all isNumB = true := by
      rw [List.all_cons, Bool.and_eq_true]
      exact ⟨rfl, digit_isNumB ds h2⟩
    have hne : ds.isEmpty = false := by
      cases ds with
      | nil => exact absurd rfl h1
      | cons a t => rfl
    rw [read_string, hsplit, read_number, read_digits_split _ hall 58 isNumB_58]
    simp only [exbind_ok]
    rw [pyInt]
    simp only [if_pos rfl, hne, Bool.false_eq_true, if_false, h2, if_true]
    simp only [exbind_ok, expect, if_pos rfl]
    rw [Int.toNat_of_nonpos (by omega)]
    rfl
  · simp [decode_one, show isDigitB 45 = false from rfl]

/-- Witness for the amended C10 at the input -5:rest. -/
theorem C10_negative_length_witness :
    read_string (45 :: ([53] ++ 58 :: [114, 101, 115, 116])) = .ok ([], [114, 101, 115, 116]) ∧
    decode_one (0 + 1) (45 :: ([53] ++ 58 :: [114, 101, 115, 116])) = .error .notImpl :=
  C10_negative_length [53] [114, 101, 115, 116] 0 (by decide) (by decide)
